import Mathlib

/-!
Verification development for the `opencan/cand` repository.

The repository's `src/` tree contains only the packaging script `src/setup.py`;
the daemon core described by the specification (message catalog, frame codec,
signal store, receive pump) is not shipped under `src/`.  Definitions for those
components are therefore modelled from the specification text, as marked in
their doc comments; `src/setup.py` is embedded directly.
-/

namespace Cand

/-! ### Data model (spec §3) -/

/-- Modelled from the spec: byte order of a signal's bit layout ("byte order
(little/big-endian)", spec §3); the codec implementation is absent from `src/`. -/
inductive ByteOrder where
  | littleEndian
  | bigEndian
deriving DecidableEq

/-- Modelled from the spec: a `SignalDef` record ("name, start bit, bit length,
byte order, signedness, scale (float, nonzero), offset (float), valid physical
range [min, max]", spec §3); the catalog implementation is absent from `src/`.
Physical quantities are modelled as rationals. -/
structure SignalDef where
  name : String
  start : ℕ
  length : ℕ
  byteOrder : ByteOrder
  signed : Bool
  scale : ℚ
  offset : ℚ
  min : ℚ
  max : ℚ
deriving DecidableEq

/-- Modelled from the spec: a `MessageDef` record ("identifier, byte length,
optional cycle-time, ordered set of SignalDef entries", spec §3); the catalog
implementation is absent from `src/`. -/
structure MessageDef where
  id : ℕ
  length : ℕ
  cycleTime : Option ℕ
  signals : List SignalDef
deriving DecidableEq

/-- Modelled from the spec: a CAN frame, "identifier + byte payload of exact
MessageDef length" (spec §3).  The payload is a list of byte values,
least-significant byte first. -/
structure Frame where
  id : ℕ
  payload : List ℕ
deriving DecidableEq

/-! ### Bit layout -/

/-- Modelled from the spec: the DBC sawtooth renumbering that converts between
little-endian bit indices and the MSB-first linear order used by big-endian
(Motorola) signal layouts; the codec implementation is absent from `src/`.
Within each byte `8*b .. 8*b+7` the bit order is reversed. -/
def sawtooth (n : ℕ) : ℕ := 8 * (n / 8) + (7 - n % 8)

/-- Modelled from the spec: the payload bit index holding bit `k` (k-th least
significant bit) of a signal's raw value, "packs into the byte payload at the
declared bit position/order" (spec §4.2); the codec implementation is absent
from `src/`.  Little-endian signals occupy bits `start, start+1, ...` of the
little-endian payload number; big-endian signals start at the MSB position
`start` and descend in the sawtooth (Motorola) order. -/
def SignalDef.bitIndex (sig : SignalDef) (k : ℕ) : ℕ :=
  match sig.byteOrder with
  | .littleEndian => sig.start + k
  | .bigEndian => sawtooth (sawtooth sig.start + sig.length - 1 - k)

/-- Modelled from the spec: the set of payload bit positions a signal occupies,
used for the bit-range validity and non-overlap checks (spec §4.1). -/
def SignalDef.occupiedBits (sig : SignalDef) : Finset ℕ :=
  (Finset.range sig.length).image sig.bitIndex

/-! ### Raw-value arithmetic -/

/-- Modelled from the spec: the smallest raw value representable in the
signal's bit width, given its signedness; the codec implementation is absent
from `src/`. -/
def SignalDef.rawMin (sig : SignalDef) : ℤ :=
  if sig.signed then -(2 ^ (sig.length - 1)) else 0

/-- Modelled from the spec: the largest raw value representable in the
signal's bit width, given its signedness; the codec implementation is absent
from `src/`. -/
def SignalDef.rawMax (sig : SignalDef) : ℤ :=
  if sig.signed then 2 ^ (sig.length - 1) - 1 else 2 ^ sig.length - 1

/-- Modelled from the spec: "clamps to the signal's bit-width range"
(spec §4.2); the codec implementation is absent from `src/`. -/
def clampRaw (sig : SignalDef) (r : ℤ) : ℤ :=
  max sig.rawMin (min sig.rawMax r)

/-- Modelled from the spec: the unsigned bit pattern stored for a raw value
(two's complement for signed signals); the codec implementation is absent
from `src/`. -/
def toBits (sig : SignalDef) (r : ℤ) : ℕ :=
  (r % (2 ^ sig.length)).toNat

/-- Modelled from the spec: "extracts each signal's raw bits per its declared
order/signedness" (spec §4.2) — reinterpreting the extracted unsigned bit
pattern as a raw integer, sign-extending when the signal is signed. -/
def fromBits (sig : SignalDef) (u : ℕ) : ℤ :=
  if sig.signed = true ∧ 2 ^ (sig.length - 1) ≤ u then (u : ℤ) - 2 ^ sig.length
  else (u : ℤ)

/-- Modelled from the spec: `raw = round((physical - offset) / scale)`
(spec §4.2); the codec implementation is absent from `src/`. -/
def SignalDef.physToRaw (sig : SignalDef) (v : ℚ) : ℤ :=
  round ((v - sig.offset) / sig.scale)

/-- Modelled from the spec: `physical = raw * scale + offset` (spec §4.2);
the codec implementation is absent from `src/`. -/
def SignalDef.rawToPhys (sig : SignalDef) (r : ℤ) : ℚ :=
  (r : ℚ) * sig.scale + sig.offset

/-! ### Bit packing and extraction -/

/-- Modelled from the spec: the payload word holding bits `0 .. n-1` of the
unsigned pattern `u`, each placed at the payload position given by `f`;
the codec implementation is absent from `src/`. -/
def patternAux (f : ℕ → ℕ) (u : ℕ) : ℕ → ℕ
  | 0 => 0
  | n + 1 => patternAux f u n ||| (if u.testBit n then 2 ^ f n else 0)

/-- Modelled from the spec: the payload word with the signal's unsigned
pattern `u` packed at its declared bit positions and zeroes elsewhere. -/
def signalPattern (sig : SignalDef) (u : ℕ) : ℕ :=
  patternAux sig.bitIndex u sig.length

/-- Modelled from the spec: reading bits `0 .. n-1` of a signal's unsigned
pattern back out of the payload word `p`, bit `k` from payload position
`f k`; the codec implementation is absent from `src/`. -/
def extractAux (f : ℕ → ℕ) (p : ℕ) : ℕ → ℕ
  | 0 => 0
  | n + 1 => extractAux f p n + (if p.testBit (f n) then 2 ^ n else 0)

/-- Modelled from the spec: the unsigned bit pattern of a signal extracted
from the payload word `p`. -/
def extractBits (sig : SignalDef) (p : ℕ) : ℕ :=
  extractAux sig.bitIndex p sig.length

/-- Modelled from the spec: little-endian byte serialization of a payload
word into `len` bytes; frames carry "identifier + byte payload" (spec §3). -/
def natToBytes : ℕ → ℕ → List ℕ
  | 0, _ => []
  | n + 1, p => p % 256 :: natToBytes n (p / 256)

/-- Modelled from the spec: the payload word denoted by a little-endian list
of bytes. -/
def bytesToNat (bs : List ℕ) : ℕ :=
  bs.foldr (fun b acc => b + 256 * acc) 0

/-! ### Message Catalog (spec §4.1) -/

/-- Modelled from the spec: every signal of the message lies inside the
message's byte length ("any signal's bit range exceeds its message's byte
length", spec §4.1). -/
def rangeOk (m : MessageDef) : Prop :=
  ∀ sig ∈ m.signals, ∀ k < sig.length, sig.bitIndex k < 8 * m.length

/-- Modelled from the spec: no two signals of the message overlap in any bit
position ("any signal's bit range overlaps another signal's in the same
message", spec §4.1). -/
def noOverlap (m : MessageDef) : Prop :=
  m.signals.Pairwise fun a b => a.occupiedBits ∩ b.occupiedBits = ∅

instance (m : MessageDef) : Decidable (rangeOk m) := by
  unfold rangeOk; infer_instance

instance (m : MessageDef) : Decidable (noOverlap m) := by
  unfold noOverlap; infer_instance

/-- Modelled from the spec: the list of all signal names of the table, used
for the global name-uniqueness check (spec §3, §4.1). -/
def namesOf (table : List MessageDef) : List String :=
  table.flatMap fun m => m.signals.map SignalDef.name

/-- Modelled from the spec: `CatalogError` — "fatal, startup-only —
ambiguous/overlapping signal layout, duplicate names" (spec §7); the catalog
implementation is absent from `src/`. -/
inductive CatalogError where
  | duplicateName
  | bitRangeExceeds
  | overlap
deriving DecidableEq

/-- Modelled from the spec: the immutable, validated message catalog
(spec §3, §4.1); the catalog implementation is absent from `src/`. -/
structure Catalog where
  table : List MessageDef
deriving DecidableEq

/-- Modelled from the spec: catalog construction, "Construction fails with
CatalogError if two signals share a name, or if any signal's bit range exceeds
its message's byte length, or if any signal's bit range overlaps another
signal's in the same message.  No side effects; pure data." (spec §4.1);
the catalog implementation is absent from `src/`. -/
def buildCatalog (table : List MessageDef) : Except CatalogError Catalog :=
  if ¬ (namesOf table).Nodup then .error .duplicateName
  else if ¬ ∀ m ∈ table, rangeOk m then .error .bitRangeExceeds
  else if ¬ ∀ m ∈ table, noOverlap m then .error .overlap
  else .ok ⟨table⟩

/-- Modelled from the spec: `lookup_message(id) -> MessageDef or NotFound`
(spec §4.1). -/
def Catalog.lookupMessage (c : Catalog) (i : ℕ) : Option MessageDef :=
  c.table.find? fun m => m.id == i

/-- Modelled from the spec: `lookup_signal(name) -> (MessageDef, SignalDef)
or NotFound` (spec §4.1). -/
def Catalog.lookupSignal (c : Catalog) (n : String) : Option (MessageDef × SignalDef) :=
  c.table.findSome? fun m =>
    (m.signals.find? fun s => s.name == n).map fun s => (m, s)

/-! ### Frame Codec (spec §4.2) -/

/-- Modelled from the spec: the unsigned bit pattern a signal contributes to
an encoded payload for physical value `v`: `raw = round((physical - offset) /
scale)`, clamped to the signal's bit-width range (spec §4.2). -/
def sigRawBits (sig : SignalDef) (v : ℚ) : ℕ :=
  toBits sig (clampRaw sig (sig.physToRaw v))

/-- Modelled from the spec: packing every signal of the list into one payload
word, each at its declared bit positions (spec §4.2); the codec implementation
is absent from `src/`. -/
def packSignals (val : String → ℚ) : List SignalDef → ℕ
  | [] => 0
  | sig :: rest => signalPattern sig (sigRawBits sig (val sig.name)) ||| packSignals val rest

/-- Modelled from the spec: the physical value used when encoding a signal:
the caller-supplied mapping entry when present, otherwise "the signal's last
known value from the Signal Store (passed in by the caller) or zero if never
set" (spec §4.2). -/
def effectiveValue (mapping : String → Option ℚ) (lastKnown : String → Option ℚ)
    (n : String) : ℚ :=
  match mapping n with
  | some v => v
  | none => (lastKnown n).getD 0

/-- Modelled from the spec: `encode(MessageDef, mapping of signal name ->
physical value) -> Frame` (spec §4.2); the codec implementation is absent from
`src/`.  `lastKnown` is the Signal Store view passed in by the caller. -/
def encode (msg : MessageDef) (mapping : String → Option ℚ)
    (lastKnown : String → Option ℚ) : Frame :=
  ⟨msg.id, natToBytes msg.length (packSignals (effectiveValue mapping lastKnown) msg.signals)⟩

/-- Modelled from the spec: the decode error taxonomy,
`DecodeError::UnknownMessage` and `DecodeError::LengthMismatch` (spec §7);
the codec implementation is absent from `src/`. -/
inductive DecodeError where
  | unknownMessage
  | lengthMismatch
deriving DecidableEq

/-- Modelled from the spec: `decode(Frame) -> mapping of signal name ->
physical value` — looks up the MessageDef by frame identifier, fails with
`DecodeError::UnknownMessage` if absent, fails with
`DecodeError::LengthMismatch` if the payload length does not match, otherwise
extracts each signal's raw bits and computes `physical = raw * scale + offset`
with no clamping (spec §4.2); the codec implementation is absent from `src/`. -/
def decode (c : Catalog) (f : Frame) : Except DecodeError (List (String × ℚ)) :=
  match c.lookupMessage f.id with
  | none => .error .unknownMessage
  | some msg =>
    if f.payload.length = msg.length then
      .ok (msg.signals.map fun sig =>
        (sig.name, sig.rawToPhys (fromBits sig (extractBits sig (bytesToNat f.payload)))))
    else .error .lengthMismatch

/-! ### Signal Store (spec §4.3) -/

/-- Modelled from the spec: the provenance tag of a stored value,
"source (bus-received vs externally-commanded)" (spec §3). -/
inductive Source where
  | busReceived
  | externallyCommanded
deriving DecidableEq

/-- Modelled from the spec: a `SignalValue` — "signal name, physical value,
timestamp of last update, source" (spec §3); the store implementation is
absent from `src/`.  Timestamps are modelled as caller-supplied logical times
since the spec fixes no clock. -/
structure SignalValue where
  value : ℚ
  source : Source
  ts : ℕ
deriving DecidableEq

/-- Modelled from the spec: the Signal Store state, "latest known physical
value per signal, keyed by signal name" (spec §2); entries are created lazily
on first update (spec §3). -/
structure StoreState where
  values : String → Option SignalValue

/-- Modelled from the spec: the empty store at startup; "all Signal Store
contents are memory-resident and reset on restart" (spec §6). -/
def initStore : StoreState := ⟨fun _ => none⟩

/-- Modelled from the spec: the global clamp-vs-reject policy for
out-of-range physical values, "a single, consistently-applied configuration
choice" (spec §7). -/
inductive Policy where
  | clampPolicy
  | rejectPolicy
deriving DecidableEq

/-- Modelled from the spec: `ValidationError` — "unknown signal name or
out-of-range value under reject policy" (spec §7). -/
inductive ValidationError where
  | unknownName
  | outOfRange
deriving DecidableEq

/-- Modelled from the spec: clamping a physical value to the signal's declared
[min, max] range (spec §3, §7). -/
def clampPhys (sig : SignalDef) (v : ℚ) : ℚ :=
  max sig.min (min sig.max v)

/-- Modelled from the spec: `set(name, value, source) -> success or
ValidationError` — "validates name exists and value within declared range, per
clamp/reject policy" (spec §4.3); the store implementation is absent from
`src/`. -/
def storeSet (c : Catalog) (pol : Policy) (s : StoreState) (n : String) (v : ℚ)
    (src : Source) (ts : ℕ) : Except ValidationError StoreState :=
  match c.lookupSignal n with
  | none => .error .unknownName
  | some (_, sig) =>
    match pol with
    | .clampPolicy =>
      .ok ⟨fun n' => if n' = n then some ⟨clampPhys sig v, src, ts⟩ else s.values n'⟩
    | .rejectPolicy =>
      if sig.min ≤ v ∧ v ≤ sig.max then
        .ok ⟨fun n' => if n' = n then some ⟨v, src, ts⟩ else s.values n'⟩
      else .error .outOfRange

/-- Modelled from the spec: `get(name) -> SignalValue or NotFound`
(spec §4.3). -/
def storeGet (s : StoreState) (n : String) : Option SignalValue :=
  s.values n

/-- Modelled from the spec: `snapshot(message) -> mapping of signal name ->
current value for all signals in that message` (spec §4.3). -/
def storeSnapshot (s : StoreState) (msg : MessageDef) : List (String × Option ℚ) :=
  msg.signals.map fun sig => (sig.name, (s.values sig.name).map SignalValue.value)

/-- Modelled from the spec: one Signal Store operation of the §4.3 contract
(`set` mutates; `get` and `snapshot` are reads). -/
inductive StoreOp where
  | setOp (n : String) (v : ℚ) (src : Source) (ts : ℕ)
  | getOp (n : String)
  | snapshotOp (msg : MessageDef)

/-- Modelled from the spec: the state reached after one Signal Store
operation; a rejected `set` leaves the store unmodified, reads never modify
it (spec §4.3). -/
def applyOp (c : Catalog) (pol : Policy) (s : StoreState) : StoreOp → StoreState
  | .setOp n v src ts =>
    match storeSet c pol s n v src ts with
    | .ok s' => s'
    | .error _ => s
  | .getOp _ => s
  | .snapshotOp _ => s

/-- Modelled from the spec: the store state reached from `s` by a sequence of
operations. -/
def runOps (c : Catalog) (pol : Policy) (s : StoreState) (ops : List StoreOp) : StoreState :=
  ops.foldl (applyOp c pol) s

/-- Modelled from the spec: the Signal Store invariants of spec §3 — every
stored value's name exists in the Catalog and every stored value lies within
its signal's declared [min, max] range. -/
def storeInv (c : Catalog) (s : StoreState) : Prop :=
  ∀ n sv, s.values n = some sv →
    ∃ msg sig, c.lookupSignal n = some (msg, sig) ∧ sig.min ≤ sv.value ∧ sv.value ≤ sig.max

/-! ### Receive Pump (spec §4.5) -/

/-- Modelled from the spec: the Receive Pump's observable state — the Signal
Store, the values republished to the message bus, and the unknown-frame
counter incremented "for observability" (spec §4.5); the pump implementation
is absent from `src/`. -/
structure PumpState where
  store : StoreState
  published : List (String × ℚ)
  unknownCount : ℕ

/-- Modelled from the spec: the Receive Pump's Signal Store update plus
republish step for one decoded signal: the value is written with source =
bus-received and republished only when it differs from the previously stored
value (exact-equality change policy, an alternative spec §4.5 allows). -/
def pumpApply (c : Catalog) (pol : Policy) (ts : ℕ) (st : PumpState)
    (p : String × ℚ) : PumpState :=
  let store' :=
    match storeSet c pol st.store p.1 p.2 .busReceived ts with
    | .ok s2 => s2
    | .error _ => st.store
  let changed := (st.store.values p.1).map SignalValue.value ≠ some p.2
  ⟨store', if changed then st.published ++ [p] else st.published, st.unknownCount⟩

/-- Modelled from the spec: processing one frame in the Receive Pump
(spec §4.5) — on `DecodeError::UnknownMessage` the frame is dropped and the
counter incremented; on `DecodeError::LengthMismatch` the frame is dropped;
on success each signal is written to the Signal Store with source =
bus-received and changed values are republished; the pump implementation is
absent from `src/`. -/
def pumpStep (c : Catalog) (pol : Policy) (ts : ℕ) (st : PumpState) (f : Frame) : PumpState :=
  match decode c f with
  | .error .unknownMessage => ⟨st.store, st.published, st.unknownCount + 1⟩
  | .error .lengthMismatch => st
  | .ok pairs => pairs.foldl (pumpApply c pol ts) st

/-! ### Packaging script (src/setup.py) -/

/-- Arguments of the `setuptools.setup` call in `src/setup.py`. -/
structure SetupArgs where
  name : String
  version : String
  author : String
  author_email : String
  description : String
  long_description : String
  long_description_content_type : String
  url : String
  packages : List String
  install_requires : List String
  python_requires : String
  scripts : List String
deriving DecidableEq

/-- The single `setuptools.setup(...)` call of `src/setup.py`, as a function
of the `long_description` text read from `README.md`; all other arguments are
literals of the script. -/
def setupCall (ld : String) : SetupArgs :=
  ⟨"opencan-cand", "0.0.3", "OpenCAN", "info@opencan.org", "CAN Service Daemon",
   ld, "text/markdown", "https://github.com/opencan/cand", ["cand"],
   ["cantools>=37.0.7", "coloredlogs>=15.0.1", "msgpack>=1.0.3", "python-can>=3.3.4",
    "redis>=4.2.2"], ">=3.8", ["cand/cand"]⟩

/-- Outcome of one run of `src/setup.py`: the `setuptools.setup` invocations
made, and whether the script finished or propagated the `README.md` read
error. -/
structure ScriptRun where
  setupCalls : List SetupArgs
  outcome : Except String Unit

/-- Shallow embedding of `src/setup.py`: the script first opens and reads
`README.md` (`readme` is the result of that read); if the read fails, the
exception propagates and `setuptools.setup` is never reached; otherwise
`setuptools.setup` is invoked exactly once with `long_description` bound to
the full file contents. -/
def runSetupScript (readme : Except String String) : ScriptRun :=
  match readme with
  | .error e => ⟨[], .error e⟩
  | .ok ld => ⟨[setupCall ld], .ok ()⟩

/-! ### Concrete fixtures (from the end-to-end scenario of spec §8) -/

/-- A concrete signal in the style of the spec §8 scenario: "Speed" at bits
0–15, little-endian, unsigned, scale 1, offset 0, declared range [0, 100]. -/
def speedSig : SignalDef := ⟨"Speed", 0, 16, .littleEndian, false, 1, 0, 0, 100⟩

/-- The message of the spec §8 scenario: ID 0x100, length 8, cycle 50 ms. -/
def speedMsg : MessageDef := ⟨256, 8, some 50, [speedSig]⟩

/-- A catalog holding just the spec §8 scenario message. -/
def demoCatalog : Catalog := ⟨[speedMsg]⟩

/-- A caller-supplied mapping carrying a write of "Speed" to 55. -/
def demoMapping : String → Option ℚ :=
  fun n => if n = "Speed" then some 55 else none

/-- An empty Signal Store view: no signal has a last known value. -/
def demoNoStore : String → Option ℚ := fun _ => none

/-! ### Bit-layout lemmas -/

theorem sawtooth_sawtooth (n : ℕ) : sawtooth (sawtooth n) = n := by
  unfold sawtooth
  omega

theorem sawtooth_inj {a b : ℕ} (h : sawtooth a = sawtooth b) : a = b := by
  have := congrArg sawtooth h
  rwa [sawtooth_sawtooth, sawtooth_sawtooth] at this

theorem bitIndex_le {sig : SignalDef} (h : sig.byteOrder = .littleEndian) (k : ℕ) :
    sig.bitIndex k = sig.start + k := by
  unfold SignalDef.bitIndex
  rw [h]

theorem bitIndex_be {sig : SignalDef} (h : sig.byteOrder = .bigEndian) (k : ℕ) :
    sig.bitIndex k = sawtooth (sawtooth sig.start + sig.length - 1 - k) := by
  unfold SignalDef.bitIndex
  rw [h]

theorem bitIndex_injOn (sig : SignalDef) {k k' : ℕ} (hk : k < sig.length)
    (hk' : k' < sig.length) (h : sig.bitIndex k = sig.bitIndex k') : k = k' := by
  cases hbo : sig.byteOrder
  · rw [bitIndex_le hbo, bitIndex_le hbo] at h
    omega
  · rw [bitIndex_be hbo, bitIndex_be hbo] at h
    have := sawtooth_inj h
    omega

theorem mem_occupiedBits {sig : SignalDef} {i : ℕ} :
    i ∈ sig.occupiedBits ↔ ∃ k < sig.length, sig.bitIndex k = i := by
  unfold SignalDef.occupiedBits
  simp [Finset.mem_image, Finset.mem_range]

/-! ### Packing and extraction lemmas -/

theorem patternAux_testBit_of_notMem (f : ℕ → ℕ) (u : ℕ) {i : ℕ} (n : ℕ)
    (hni : ∀ k < n, f k ≠ i) : (patternAux f u n).testBit i = false := by
  induction n with
  | zero => simp [patternAux]
  | succ m ih =>
    simp only [patternAux, Nat.testBit_or]
    rw [ih fun k hk => hni k (by omega)]
    cases hu : u.testBit m
    · simp
    · simp [Nat.testBit_two_pow_of_ne (hni m (Nat.lt_succ_self m))]

theorem patternAux_testBit_eq (f : ℕ → ℕ) (u : ℕ) {n : ℕ}
    (hinj : ∀ a < n, ∀ b < n, f a = f b → a = b) {k : ℕ} (hk : k < n) :
    (patternAux f u n).testBit (f k) = u.testBit k := by
  induction n with
  | zero => omega
  | succ m ih =>
    simp only [patternAux, Nat.testBit_or]
    rcases Nat.lt_succ_iff_lt_or_eq.mp hk with h | h
    · rw [ih (fun a ha b hb => hinj a (by omega) b (by omega)) h]
      have hne : f m ≠ f k := fun he => by
        have := hinj m (Nat.lt_succ_self m) k (by omega) he
        omega
      cases hu : u.testBit m
      · simp
      · simp [Nat.testBit_two_pow_of_ne hne]
    · subst h
      have hfirst : (patternAux f u k).testBit (f k) = false :=
        patternAux_testBit_of_notMem f u k fun j hj he => by
          have := hinj j (by omega) k (by omega) he
          omega
      rw [hfirst, Bool.false_or]
      cases hu : u.testBit k
      · simp
      · simp [Nat.testBit_two_pow_self]

theorem patternAux_lt_two_pow (f : ℕ → ℕ) (u : ℕ) {n M : ℕ}
    (hf : ∀ k < n, f k < M) : patternAux f u n < 2 ^ M := by
  induction n with
  | zero => exact Nat.two_pow_pos M
  | succ m ih =>
    refine Nat.or_lt_two_pow (ih fun k hk => hf k (by omega)) ?_
    cases u.testBit m
    · simp [Nat.two_pow_pos M]
    · simpa using Nat.pow_lt_pow_right (by norm_num) (hf m (Nat.lt_succ_self m))

theorem packSignals_testBit_of_notMem (val : String → ℚ) {l : List SignalDef} {i : ℕ}
    (h : ∀ s ∈ l, i ∉ s.occupiedBits) : (packSignals val l).testBit i = false := by
  induction l with
  | nil => simp [packSignals]
  | cons s rest ih =>
    simp only [packSignals, Nat.testBit_or]
    rw [ih fun s' hs' => h s' (List.mem_cons_of_mem s hs')]
    unfold signalPattern
    rw [patternAux_testBit_of_notMem s.bitIndex _ s.length fun k hk he =>
      h s (List.mem_cons_self s rest) (mem_occupiedBits.mpr ⟨k, hk, he⟩)]
    rfl

theorem packSignals_testBit_self (val : String → ℚ) {l : List SignalDef} {sig : SignalDef}
    (hmem : sig ∈ l)
    (hpair : l.Pairwise fun a b => a.occupiedBits ∩ b.occupiedBits = ∅)
    {k : ℕ} (hk : k < sig.length) :
    (packSignals val l).testBit (sig.bitIndex k)
      = (sigRawBits sig (val sig.name)).testBit k := by
  induction l with
  | nil => cases hmem
  | cons s rest ih =>
    rw [List.pairwise_cons] at hpair
    simp only [packSignals, Nat.testBit_or]
    rcases List.mem_cons.mp hmem with rfl | hmem'
    · unfold signalPattern
      rw [patternAux_testBit_eq sig.bitIndex _
        (fun a ha b hb he => bitIndex_injOn sig ha hb he) hk]
      have hrest : (packSignals val rest).testBit (sig.bitIndex k) = false := by
        refine packSignals_testBit_of_notMem val fun s' hs' hmem2 => ?_
        have hdisj := hpair.1 s' hs'
        have : sig.bitIndex k ∈ sig.occupiedBits ∩ s'.occupiedBits :=
          Finset.mem_inter.mpr ⟨mem_occupiedBits.mpr ⟨k, hk, rfl⟩, hmem2⟩
        rw [hdisj] at this
        exact absurd this (Finset.not_mem_empty _)
      rw [hrest, Bool.or_false]
    · have hhead : (signalPattern s (sigRawBits s (val s.name))).testBit (sig.bitIndex k)
          = false := by
        unfold signalPattern
        refine patternAux_testBit_of_notMem s.bitIndex _ s.length fun j hj he => ?_
        have hdisj := hpair.1 sig hmem'
        have : sig.bitIndex k ∈ s.occupiedBits ∩ sig.occupiedBits :=
          Finset.mem_inter.mpr
            ⟨mem_occupiedBits.mpr ⟨j, hj, he⟩, mem_occupiedBits.mpr ⟨k, hk, rfl⟩⟩
        rw [hdisj] at this
        exact absurd this (Finset.not_mem_empty _)
      rw [hhead, Bool.false_or]
      exact ih hmem' hpair.2

theorem packSignals_lt_two_pow (val : String → ℚ) {l : List SignalDef} {M : ℕ}
    (h : ∀ s ∈ l, ∀ k < s.length, s.bitIndex k < M) : packSignals val l < 2 ^ M := by
  induction l with
  | nil => exact Nat.two_pow_pos M
  | cons s rest ih =>
    refine Nat.or_lt_two_pow ?_ (ih fun s' hs' => h s' (List.mem_cons_of_mem s hs'))
    exact patternAux_lt_two_pow s.bitIndex _ (h s (List.mem_cons_self s rest))

theorem extractAux_eq (f : ℕ → ℕ) (p u : ℕ) {n : ℕ}
    (h : ∀ k < n, p.testBit (f k) = u.testBit k) :
    extractAux f p n = u % 2 ^ n := by
  induction n with
  | zero => simp [extractAux, Nat.mod_one]
  | succ m ih =>
    have hsplit : u % 2 ^ (m + 1) = u % 2 ^ m + (if u.testBit m then 2 ^ m else 0) := by
      rw [pow_succ, Nat.mod_mul]
      have hbit : u.testBit m = decide (u / 2 ^ m % 2 = 1) := Nat.testBit_to_div_mod
      rcases Nat.mod_two_eq_zero_or_one (u / 2 ^ m) with h2 | h2 <;> simp [hbit, h2]
    simp only [extractAux]
    rw [ih fun k hk => h k (by omega), h m (Nat.lt_succ_self m), hsplit]

/-! ### Byte serialization lemmas -/

theorem length_natToBytes (n p : ℕ) : (natToBytes n p).length = n := by
  induction n generalizing p with
  | zero => rfl
  | succ m ih => simp [natToBytes, ih]

theorem bytesToNat_natToBytes (n p : ℕ) : bytesToNat (natToBytes n p) = p % 256 ^ n := by
  induction n generalizing p with
  | zero => simp [natToBytes, bytesToNat, Nat.mod_one]
  | succ m ih =>
    simp only [natToBytes, bytesToNat, List.foldr_cons]
    have : (natToBytes m (p / 256)).foldr (fun b acc => b + 256 * acc) 0
        = bytesToNat (natToBytes m (p / 256)) := rfl
    rw [this, ih, pow_succ', Nat.mod_mul]

/-! ### Raw-value round-trip lemmas -/

theorem toBits_lt (sig : SignalDef) (r : ℤ) : toBits sig r < 2 ^ sig.length := by
  unfold toBits
  have hP : (0 : ℤ) < 2 ^ sig.length := by positivity
  have h1 := Int.emod_lt_of_pos r hP
  have h0 := Int.emod_nonneg r (ne_of_gt hP)
  have hcast : ((2 ^ sig.length : ℕ) : ℤ) = 2 ^ sig.length := by push_cast; ring
  omega

theorem clampRaw_eq {sig : SignalDef} {r : ℤ} (h1 : sig.rawMin ≤ r)
    (h2 : r ≤ sig.rawMax) : clampRaw sig r = r := by
  unfold clampRaw
  rw [min_eq_right h2, max_eq_right h1]

theorem fromBits_toBits (sig : SignalDef) {r : ℤ} (hlen : 0 < sig.length)
    (h1 : sig.rawMin ≤ r) (h2 : r ≤ sig.rawMax) : fromBits sig (toBits sig r) = r := by
  have hP : (0 : ℤ) < 2 ^ sig.length := by positivity
  have hcast : ((2 ^ sig.length : ℕ) : ℤ) = 2 ^ sig.length := by push_cast; ring
  have hcast1 : ((2 ^ (sig.length - 1) : ℕ) : ℤ) = 2 ^ (sig.length - 1) := by push_cast; ring
  have hpow : (2 : ℤ) ^ sig.length = 2 * 2 ^ (sig.length - 1) := by
    conv_lhs => rw [show sig.length = (sig.length - 1) + 1 from by omega]
    rw [pow_succ]
    ring
  unfold fromBits toBits
  unfold SignalDef.rawMin at h1
  unfold SignalDef.rawMax at h2
  cases hsg : sig.signed with
  | false =>
    rw [hsg] at h1 h2
    simp only [if_neg, Bool.false_eq_true, false_and, if_false] at h1 h2 ⊢
    rw [Int.emod_eq_of_lt h1 (by omega)]
    omega
  | true =>
    rw [hsg] at h1 h2
    simp only [if_pos] at h1 h2
    by_cases hr : 0 ≤ r
    · have hmod : r % (2 ^ sig.length) = r := Int.emod_eq_of_lt hr (by omega)
      rw [hmod, if_neg]
      · omega
      · rintro ⟨-, hge⟩
        omega
    · have hmod : r % (2 ^ sig.length) = r + 2 ^ sig.length := by
        have hself : (r + 2 ^ sig.length * 1) % (2 ^ sig.length) = r % (2 ^ sig.length) :=
          Int.add_mul_emod_self_left r (2 ^ sig.length) 1
        rw [mul_one] at hself
        rw [← hself]
        exact Int.emod_eq_of_lt (by omega) (by omega)
      rw [hmod, if_pos]
      · omega
      · exact ⟨rfl, by omega⟩

theorem round_mono_rat {a b : ℚ} (h : a ≤ b) : round a ≤ round b := by
  rw [round_eq, round_eq]
  exact Int.floor_le_floor (by linarith)

theorem physToRaw_mono {sig : SignalDef} (hscale : 0 < sig.scale) {a b : ℚ}
    (h : a ≤ b) : sig.physToRaw a ≤ sig.physToRaw b := by
  unfold SignalDef.physToRaw
  exact round_mono_rat ((div_le_div_iff_of_pos_right hscale).mpr (by linarith))

theorem rawToPhys_physToRaw_close (sig : SignalDef) (hscale : 0 < sig.scale) (v : ℚ) :
    |sig.rawToPhys (sig.physToRaw v) - v| ≤ sig.scale := by
  unfold SignalDef.rawToPhys SignalDef.physToRaw
  set t := (v - sig.offset) / sig.scale with ht
  have h1 : |t - round t| ≤ 1 / 2 := abs_sub_round t
  have hv : v = t * sig.scale + sig.offset := by
    rw [ht]
    field_simp
  rw [hv, show (round t : ℚ) * sig.scale + sig.offset - (t * sig.scale + sig.offset)
      = (round t - t) * sig.scale from by ring, abs_mul, abs_of_pos hscale,
    abs_sub_comm]
  calc |t - round t| * sig.scale ≤ (1 / 2) * sig.scale :=
        mul_le_mul_of_nonneg_right h1 (le_of_lt hscale)
    _ ≤ sig.scale := by linarith

/-! ### Codec composition lemmas -/

theorem extract_pack (msg : MessageDef) (sig : SignalDef) (val : String → ℚ)
    (hmem : sig ∈ msg.signals) (hrange : rangeOk msg) (hno : noOverlap msg) :
    extractBits sig (bytesToNat (natToBytes msg.length (packSignals val msg.signals)))
      = sigRawBits sig (val sig.name) := by
  have h256 : (256 : ℕ) ^ msg.length = 2 ^ (8 * msg.length) := by
    rw [show (256 : ℕ) = 2 ^ 8 from by norm_num, ← pow_mul]
  have hlt : packSignals val msg.signals < 2 ^ (8 * msg.length) :=
    packSignals_lt_two_pow val hrange
  rw [bytesToNat_natToBytes, h256, Nat.mod_eq_of_lt hlt]
  unfold extractBits
  rw [extractAux_eq sig.bitIndex _ (sigRawBits sig (val sig.name))
    fun k hk => packSignals_testBit_self val hmem hno hk]
  exact Nat.mod_eq_of_lt (toBits_lt sig _)

theorem decode_unknown (c : Catalog) (f : Frame)
    (hm : c.lookupMessage f.id = none) : decode c f = .error .unknownMessage := by
  simp only [decode, hm]

theorem decode_mismatch (c : Catalog) (f : Frame) (msg : MessageDef)
    (hm : c.lookupMessage f.id = some msg) (hl : f.payload.length ≠ msg.length) :
    decode c f = .error .lengthMismatch := by
  simp only [decode, hm]
  rw [if_neg hl]

theorem decode_ok (c : Catalog) (f : Frame) (msg : MessageDef)
    (hm : c.lookupMessage f.id = some msg) (hl : f.payload.length = msg.length) :
    decode c f = .ok (msg.signals.map fun sig =>
      (sig.name, sig.rawToPhys (fromBits sig (extractBits sig (bytesToNat f.payload))))) := by
  simp only [decode, hm]
  rw [if_pos hl]

/-! ### Claim theorems -/

/-- C1: for every signal and every physical value within the signal's declared
[min, max] range, decoding the frame produced by encoding that value yields,
for that signal, the original value to within one scale-step of rounding
tolerance.  The hypotheses record the standing catalog validity conditions
(valid bit layout, positive width and scale, and a [min, max] range
representable in the signal's bit width, so that the bit-width clamp of
spec §4.2 is inactive on in-range values). -/
theorem decode_encode_roundtrip (c : Catalog) (msg : MessageDef) (sig : SignalDef)
    (mapping lastKnown : String → Option ℚ) (v : ℚ)
    (hm : c.lookupMessage msg.id = some msg)
    (hmem : sig ∈ msg.signals)
    (hrange : rangeOk msg) (hno : noOverlap msg)
    (hlen : 0 < sig.length) (hscale : 0 < sig.scale)
    (hmap : mapping sig.name = some v)
    (hv1 : sig.min ≤ v) (hv2 : v ≤ sig.max)
    (hlo : sig.rawMin ≤ sig.physToRaw sig.min)
    (hhi : sig.physToRaw sig.max ≤ sig.rawMax) :
    ∃ out, decode c (encode msg mapping lastKnown) = .ok out ∧
      ∃ d, (sig.name, d) ∈ out ∧ |d - v| ≤ sig.scale := by
  have hid : (encode msg mapping lastKnown).id = msg.id := rfl
  have hm' : c.lookupMessage (encode msg mapping lastKnown).id = some msg := by
    rw [hid]; exact hm
  have hlenp : (encode msg mapping lastKnown).payload.length = msg.length :=
    length_natToBytes _ _
  refine ⟨_, decode_ok c _ msg hm' hlenp, ?_⟩
  refine ⟨sig.rawToPhys (fromBits sig
      (extractBits sig (bytesToNat (encode msg mapping lastKnown).payload))),
    List.mem_map.mpr ⟨sig, hmem, rfl⟩, ?_⟩
  have hval : effectiveValue mapping lastKnown sig.name = v := by
    unfold effectiveValue
    rw [hmap]
  have hext : extractBits sig (bytesToNat (encode msg mapping lastKnown).payload)
      = sigRawBits sig v := by
    have h := extract_pack msg sig (effectiveValue mapping lastKnown) hmem hrange hno
    rw [hval] at h
    exact h
  have hr1 : sig.rawMin ≤ sig.physToRaw v := le_trans hlo (physToRaw_mono hscale hv1)
  have hr2 : sig.physToRaw v ≤ sig.rawMax := le_trans (physToRaw_mono hscale hv2) hhi
  have hfb : fromBits sig (sigRawBits sig v) = sig.physToRaw v := by
    unfold sigRawBits
    rw [clampRaw_eq hr1 hr2]
    exact fromBits_toBits sig hlen hr1 hr2
  rw [hext, hfb]
  exact rawToPhys_physToRaw_close sig hscale v

/-- Witness for C1: the concrete message 0x100 with signal "Speed" at bits
0–15 little-endian unsigned, encoding the physical value 55. -/
theorem decode_encode_roundtrip_witness :
    ∃ out, decode demoCatalog (encode speedMsg demoMapping demoNoStore) = .ok out ∧
      ∃ d, ("Speed", d) ∈ out ∧ |d - 55| ≤ 1 := by
  have h := decode_encode_roundtrip demoCatalog speedMsg speedSig demoMapping demoNoStore
    55 rfl (List.Mem.head _) (by decide) (by decide) (by decide) (by decide)
    rfl (by decide) (by decide)
    (by norm_num [SignalDef.rawMin, SignalDef.physToRaw, speedSig, round_zero])
    (by norm_num [SignalDef.rawMax, SignalDef.physToRaw, speedSig, round_ofNat])
  exact h

/-- C3: decode fails with `DecodeError::UnknownMessage` when the frame's
identifier is absent from the Catalog, fails with
`DecodeError::LengthMismatch` when the payload length differs from the
MessageDef's byte length, and otherwise returns, for each signal of the
message, `physical = raw * scale + offset` computed from the extracted raw
bits — the result formula applies no clamping to out-of-range values. -/
theorem decode_cases (c : Catalog) (f : Frame) :
    (c.lookupMessage f.id = none → decode c f = .error .unknownMessage) ∧
    (∀ msg, c.lookupMessage f.id = some msg → f.payload.length ≠ msg.length →
      decode c f = .error .lengthMismatch) ∧
    (∀ msg, c.lookupMessage f.id = some msg → f.payload.length = msg.length →
      decode c f = .ok (msg.signals.map fun sig =>
        (sig.name, sig.rawToPhys (fromBits sig (extractBits sig (bytesToNat f.payload)))))) :=
  ⟨decode_unknown c f, fun msg => decode_mismatch c f msg, fun msg => decode_ok c f msg⟩

/-- Witness for C3: the three decode outcomes at concrete frames against the
demo catalog. -/
theorem decode_cases_witness :
    decode demoCatalog ⟨2457, []⟩ = .error .unknownMessage ∧
    decode demoCatalog ⟨256, []⟩ = .error .lengthMismatch ∧
    decode demoCatalog ⟨256, [0, 0, 0, 0, 0, 0, 0, 0]⟩
      = .ok (speedMsg.signals.map fun sig =>
        (sig.name, sig.rawToPhys (fromBits sig
          (extractBits sig (bytesToNat [0, 0, 0, 0, 0, 0, 0, 0]))))) :=
  ⟨(decode_cases demoCatalog ⟨2457, []⟩).1 rfl,
   (decode_cases demoCatalog ⟨256, []⟩).2.1 speedMsg rfl (by decide),
   (decode_cases demoCatalog ⟨256, [0, 0, 0, 0, 0, 0, 0, 0]⟩).2.2 speedMsg rfl (by decide)⟩

/-- C4: for every MessageDef and every partial mapping of signal names to
physical values, the encoded frame carries the message's identifier and byte
length, and each signal's declared bit positions hold exactly
`raw = round((physical - offset) / scale)` clamped to the signal's bit-width
range, where the physical value is the mapping entry when present, else the
last known Signal Store value, else zero. -/
theorem encode_spec (msg : MessageDef) (mapping lastKnown : String → Option ℚ)
    (hrange : rangeOk msg) (hno : noOverlap msg) :
    (encode msg mapping lastKnown).id = msg.id ∧
    (encode msg mapping lastKnown).payload.length = msg.length ∧
    ∀ sig ∈ msg.signals,
      extractBits sig (bytesToNat (encode msg mapping lastKnown).payload)
        = toBits sig (clampRaw sig (sig.physToRaw (effectiveValue mapping lastKnown sig.name))) ∧
      (∀ v, mapping sig.name = some v → effectiveValue mapping lastKnown sig.name = v) ∧
      (∀ w, mapping sig.name = none → lastKnown sig.name = some w →
        effectiveValue mapping lastKnown sig.name = w) ∧
      (mapping sig.name = none → lastKnown sig.name = none →
        effectiveValue mapping lastKnown sig.name = 0) := by
  refine ⟨rfl, length_natToBytes _ _, fun sig hmem => ⟨?_, ?_, ?_, ?_⟩⟩
  · exact extract_pack msg sig _ hmem hrange hno
  · intro v hv
    simp [effectiveValue, hv]
  · intro w hv hw
    simp [effectiveValue, hv, hw]
  · intro hv hw
    simp [effectiveValue, hv, hw]

/-- Witness for C4: encoding the demo message with the "Speed = 55" mapping
and an empty store view. -/
theorem encode_spec_witness :
    (encode speedMsg demoMapping demoNoStore).id = speedMsg.id ∧
    (encode speedMsg demoMapping demoNoStore).payload.length = speedMsg.length ∧
    ∀ sig ∈ speedMsg.signals,
      extractBits sig (bytesToNat (encode speedMsg demoMapping demoNoStore).payload)
        = toBits sig (clampRaw sig (sig.physToRaw (effectiveValue demoMapping demoNoStore sig.name))) ∧
      (∀ v, demoMapping sig.name = some v → effectiveValue demoMapping demoNoStore sig.name = v) ∧
      (∀ w, demoMapping sig.name = none → demoNoStore sig.name = some w →
        effectiveValue demoMapping demoNoStore sig.name = w) ∧
      (demoMapping sig.name = none → demoNoStore sig.name = none →
        effectiveValue demoMapping demoNoStore sig.name = 0) :=
  encode_spec speedMsg demoMapping demoNoStore (by decide) (by decide)

/-! ### Catalog construction characterization -/

theorem buildCatalog_isError_iff_not (table : List MessageDef) :
    (∃ e, buildCatalog table = .error e) ↔
      ¬((namesOf table).Nodup ∧ (∀ m ∈ table, rangeOk m) ∧ (∀ m ∈ table, noOverlap m)) := by
  unfold buildCatalog
  by_cases h1 : (namesOf table).Nodup
  · rw [if_neg (not_not_intro h1)]
    by_cases h2 : ∀ m ∈ table, rangeOk m
    · rw [if_neg (not_not_intro h2)]
      by_cases h3 : ∀ m ∈ table, noOverlap m
      · rw [if_neg (not_not_intro h3)]
        simp only [not_and, not_forall]
        constructor
        · rintro ⟨e, he⟩
          exact absurd he (by simp)
        · intro h
          exact absurd h3 (by simpa using h h1 h2)
      · rw [if_pos h3]
        simp [h3]
    · rw [if_pos h2]
      simp [h2]
  · rw [if_pos h1]
    simp [h1]

theorem not_nodup_iff_dup (l : List String) :
    ¬l.Nodup ↔ ∃ i j : Fin l.length, i ≠ j ∧ l.get i = l.get j := by
  rw [List.nodup_iff_injective_get]
  constructor
  · intro h
    rcases Function.not_injective_iff.mp h with ⟨a, b, hab, hne⟩
    exact ⟨a, b, hne, hab⟩
  · rintro ⟨i, j, hne, heq⟩ hinj
    exact hne (hinj heq)

theorem not_rangeOk_iff (table : List MessageDef) :
    (¬∀ m ∈ table, rangeOk m) ↔
      ∃ m ∈ table, ∃ sig ∈ m.signals, ∃ k, k < sig.length ∧ 8 * m.length ≤ sig.bitIndex k := by
  unfold rangeOk
  push_neg
  rfl

theorem not_noOverlap_iff (m : MessageDef) :
    ¬noOverlap m ↔ ∃ i j : Fin m.signals.length, i < j ∧
      ∃ b, b ∈ (m.signals.get i).occupiedBits ∧ b ∈ (m.signals.get j).occupiedBits := by
  unfold noOverlap
  rw [List.pairwise_iff_get]
  constructor
  · intro h
    push_neg at h
    rcases h with ⟨i, j, hij, hne⟩
    rcases Finset.nonempty_iff_ne_empty.mpr hne with ⟨b, hb⟩
    rw [Finset.mem_inter] at hb
    exact ⟨i, j, hij, b, hb.1, hb.2⟩
  · rintro ⟨i, j, hij, b, h1, h2⟩ hall
    have hemp := hall i j hij
    have hb : b ∈ (m.signals.get i).occupiedBits ∩ (m.signals.get j).occupiedBits :=
      Finset.mem_inter.mpr ⟨h1, h2⟩
    rw [hemp] at hb
    exact Finset.not_mem_empty b hb

/-- C2: catalog construction fails with a `CatalogError` exactly when the
input table contains two signals sharing a name, or a signal whose declared
bit range runs past its message's byte length, or two signals of one message
whose bit ranges overlap in some bit position.  `buildCatalog` is a pure
function, so construction has no side effects. -/
theorem buildCatalog_error_characterization (table : List MessageDef) :
    (∃ e, buildCatalog table = .error e) ↔
      ((∃ i j : Fin (namesOf table).length, i ≠ j ∧
          (namesOf table).get i = (namesOf table).get j) ∨
       (∃ m ∈ table, ∃ sig ∈ m.signals, ∃ k, k < sig.length ∧
          8 * m.length ≤ sig.bitIndex k) ∨
       (∃ m ∈ table, ∃ i j : Fin m.signals.length, i < j ∧
          ∃ b, b ∈ (m.signals.get i).occupiedBits ∧ b ∈ (m.signals.get j).occupiedBits)) := by
  rw [buildCatalog_isError_iff_not, not_and_or, not_and_or]
  refine or_congr (not_nodup_iff_dup _) (or_congr (not_rangeOk_iff _) ?_)
  constructor
  · intro h
    push_neg at h
    rcases h with ⟨m, hm, hno⟩
    exact ⟨m, hm, (not_noOverlap_iff m).mp hno⟩
  · rintro ⟨m, hm, hx⟩ hall
    exact (not_noOverlap_iff m).mpr hx (hall m hm)

/-! ### Signal Store invariant -/

theorem clampPhys_mem {sig : SignalDef} (h : sig.min ≤ sig.max) (v : ℚ) :
    sig.min ≤ clampPhys sig v ∧ clampPhys sig v ≤ sig.max := by
  unfold clampPhys
  exact ⟨le_max_left _ _, max_le h (min_le_left _ _)⟩

theorem storeInv_applyOp (c : Catalog) (pol : Policy)
    (hwf : ∀ n m sig, c.lookupSignal n = some (m, sig) → sig.min ≤ sig.max)
    {s : StoreState} (hs : storeInv c s) (op : StoreOp) :
    storeInv c (applyOp c pol s op) := by
  cases op with
  | getOp n => exact hs
  | snapshotOp m => exact hs
  | setOp n v src ts =>
    unfold applyOp
    rcases hl : c.lookupSignal n with - | ⟨m, sig⟩
    · simp only [storeSet, hl]
      exact hs
    · cases pol with
      | clampPolicy =>
        simp only [storeSet, hl]
        intro n' sv hsv
        dsimp only at hsv
        by_cases hn : n' = n
        · rw [if_pos hn] at hsv
          rcases Option.some.inj hsv with rfl
          rcases clampPhys_mem (hwf n m sig hl) v with ⟨hb1, hb2⟩
          exact ⟨m, sig, by rw [hn]; exact hl, hb1, hb2⟩
        · rw [if_neg hn] at hsv
          exact hs n' sv hsv
      | rejectPolicy =>
        simp only [storeSet, hl]
        by_cases hv : sig.min ≤ v ∧ v ≤ sig.max
        · rw [if_pos hv]
          intro n' sv hsv
          dsimp only at hsv
          by_cases hn : n' = n
          · rw [if_pos hn] at hsv
            rcases Option.some.inj hsv with rfl
            exact ⟨m, sig, by rw [hn]; exact hl, hv.1, hv.2⟩
          · rw [if_neg hn] at hsv
            exact hs n' sv hsv
        · rw [if_neg hv]
          exact hs

/-- C5: writes for names unknown to the Catalog are rejected with a
`ValidationError` (leaving the store untouched, since `set` then returns no
new state), and in every store state reachable from startup by any sequence
of operations, each stored value's name exists in the Catalog and its value
lies within the signal's declared [min, max] range — under the clamp policy
because the write was clamped, under the reject policy because out-of-range
writes are rejected.  The hypothesis records catalog sanity: every declared
range satisfies min ≤ max. -/
theorem store_invariant (c : Catalog) (pol : Policy)
    (hwf : ∀ n m sig, c.lookupSignal n = some (m, sig) → sig.min ≤ sig.max) :
    (∀ s n v src ts, c.lookupSignal n = none →
      storeSet c pol s n v src ts = .error .unknownName) ∧
    ∀ ops, storeInv c (runOps c pol initStore ops) := by
  constructor
  · intro s n v src ts hl
    simp only [storeSet, hl]
  · intro ops
    have hinit : storeInv c initStore := by
      intro n sv h
      exact absurd h (by simp [initStore])
    have main : ∀ (l : List StoreOp) (s : StoreState), storeInv c s →
        storeInv c (runOps c pol s l) := by
      intro l
      induction l with
      | nil => exact fun s hs => hs
      | cons op rest ih => exact fun s hs => ih _ (storeInv_applyOp c pol hwf hs op)
    exact main ops initStore hinit

/-- Every signal-range declaration in the demo catalog satisfies min ≤ max. -/
theorem demoCatalog_minmax (n : String) (m : MessageDef) (sig : SignalDef)
    (h : demoCatalog.lookupSignal n = some (m, sig)) : sig.min ≤ sig.max := by
  by_cases hn : n = "Speed"
  · subst hn
    have hfix : demoCatalog.lookupSignal "Speed" = some (speedMsg, speedSig) := rfl
    rw [hfix] at h
    have hp : (speedMsg, speedSig) = (m, sig) := Option.some.inj h
    have hsig : speedSig = sig := congrArg Prod.snd hp
    rw [← hsig]
    norm_num [speedSig]
  · have hb : (speedSig.name == n) = false :=
      beq_eq_false_iff_ne.mpr fun he => hn he.symm
    have hfind : speedMsg.signals.find? (fun s => s.name == n) = none := by
      show List.find? _ [speedSig] = none
      rw [List.find?_cons_of_neg _ (by simp [hb]), List.find?_nil]
    have hmap : (speedMsg.signals.find? fun s => s.name == n).map (fun s => (speedMsg, s))
        = none := by
      rw [hfind]
      rfl
    have hfix : demoCatalog.lookupSignal n = none := by
      show List.findSome? _ [speedMsg] = none
      rw [List.findSome?_cons_of_isNone _ (by simp [hmap]), List.findSome?_nil]
    rw [hfix] at h
    exact absurd h (by simp)

/-- Witness for C5: the Signal Store invariant instantiated at the demo
catalog under the clamp policy. -/
theorem store_invariant_witness :
    (∀ s n v src ts, demoCatalog.lookupSignal n = none →
      storeSet demoCatalog .clampPolicy s n v src ts = .error .unknownName) ∧
    ∀ ops, storeInv demoCatalog (runOps demoCatalog .clampPolicy initStore ops) :=
  store_invariant demoCatalog .clampPolicy demoCatalog_minmax

/-! ### Receive Pump on unknown frames -/

/-- C6: when the Receive Pump processes a frame whose identifier is absent
from the Catalog, the resulting state keeps the Signal Store and the list of
published values unchanged and increments the unknown-frame counter by
exactly one; the pump state has no other fields, so nothing else changes. -/
theorem pump_unknown_frame (c : Catalog) (pol : Policy) (ts : ℕ) (st : PumpState)
    (f : Frame) (h : c.lookupMessage f.id = none) :
    pumpStep c pol ts st f = ⟨st.store, st.published, st.unknownCount + 1⟩ := by
  unfold pumpStep
  rw [decode_unknown c f h]

/-- Witness for C6: a frame with unloaded identifier 0x999 against the demo
catalog increments the counter and changes nothing else. -/
theorem pump_unknown_frame_witness :
    pumpStep demoCatalog .clampPolicy 0 ⟨initStore, [], 0⟩ ⟨2457, []⟩
      = ⟨initStore, [], 1⟩ :=
  pump_unknown_frame demoCatalog .clampPolicy 0 ⟨initStore, [], 0⟩ ⟨2457, []⟩ rfl

/-! ### Packaging script claims -/

/-- C9: in every run of `src/setup.py` in which reading `README.md` succeeds,
`setuptools.setup` is invoked exactly once, with name "opencan-cand", version
"0.0.3", packages exactly ["cand"], scripts exactly ["cand/cand"],
python_requires ">=3.8", and install_requires exactly the five pinned
dependency entries. -/
theorem setup_invoked_once (readme : Except String String) (s : String)
    (h : readme = .ok s) :
    (runSetupScript readme).setupCalls = [setupCall s] ∧
    (setupCall s).name = "opencan-cand" ∧
    (setupCall s).version = "0.0.3" ∧
    (setupCall s).packages = ["cand"] ∧
    (setupCall s).scripts = ["cand/cand"] ∧
    (setupCall s).python_requires = ">=3.8" ∧
    (setupCall s).install_requires = ["cantools>=37.0.7", "coloredlogs>=15.0.1",
      "msgpack>=1.0.3", "python-can>=3.3.4", "redis>=4.2.2"] := by
  subst h
  exact ⟨rfl, rfl, rfl, rfl, rfl, rfl, rfl⟩

/-- Witness for C9: a successful read of a concrete README text. -/
theorem setup_invoked_once_witness :
    (runSetupScript (.ok "readme text")).setupCalls = [setupCall "readme text"] ∧
    (setupCall "readme text").name = "opencan-cand" ∧
    (setupCall "readme text").version = "0.0.3" ∧
    (setupCall "readme text").packages = ["cand"] ∧
    (setupCall "readme text").scripts = ["cand/cand"] ∧
    (setupCall "readme text").python_requires = ">=3.8" ∧
    (setupCall "readme text").install_requires = ["cantools>=37.0.7", "coloredlogs>=15.0.1",
      "msgpack>=1.0.3", "python-can>=3.3.4", "redis>=4.2.2"] :=
  setup_invoked_once (.ok "readme text") "readme text" rfl

/-- C10: `src/setup.py` reads `README.md` before calling `setuptools.setup`:
if the read fails, the error propagates and `setuptools.setup` is never
invoked; if it succeeds, the single call's `long_description` equals the full
file contents and `long_description_content_type` is "text/markdown". -/
theorem setup_reads_readme_first (readme : Except String String) :
    (∀ e, readme = .error e →
      (runSetupScript readme).setupCalls = [] ∧
      (runSetupScript readme).outcome = .error e) ∧
    (∀ s, readme = .ok s →
      ∃ call, (runSetupScript readme).setupCalls = [call] ∧
        call.long_description = s ∧
        call.long_description_content_type = "text/markdown") := by
  constructor
  · rintro e rfl
    exact ⟨rfl, rfl⟩
  · rintro s rfl
    exact ⟨setupCall s, rfl, rfl, rfl⟩

/-- Witness for C10: a failing and a succeeding `README.md` read at concrete
values. -/
theorem setup_reads_readme_first_witness :
    ((runSetupScript (.error "missing README.md")).setupCalls = [] ∧
      (runSetupScript (.error "missing README.md")).outcome = .error "missing README.md") ∧
    ∃ call, (runSetupScript (.ok "contents")).setupCalls = [call] ∧
      call.long_description = "contents" ∧
      call.long_description_content_type = "text/markdown" :=
  ⟨(setup_reads_readme_first (.error "missing README.md")).1 "missing README.md" rfl,
   (setup_reads_readme_first (.ok "contents")).2 "contents" rfl⟩

end Cand
